import Mathlib

/-!
# httping: URL decomposition, request construction and run statistics

A shallow embedding of `src/httping.c` (function `main` and the two comparison
functions `comptime` and `compid`) together with the properties of the
natural-language specification that were checked against it.

Conventions of the embedding:

* a C string is the list of its characters before the terminating NUL;
* the fixed arrays `domain`, `port` and `page` carry their capacity, and a write
  past the end of one of them is reported as `ParseError.undefinedBehaviour`;
* `int` values are integers, `size_t` conversions are taken modulo `2 ^ 64`;
* a `double` is the rational number it stands for and comparisons are exact; the
  additions of line 271 and the division of line 287, which produce the reported
  mean, are rounded to binary64 (to nearest, ties to even); the error count of line
  276 is a sum of zeros and ones, which binary64 adds exactly; the success rate of
  line 288 and the average of the two central times of line 294 are taken as exact
  rationals.
-/

namespace Httping

/-! ## URL decomposition (`main`, lines 176 to 234) -/

/-- Contents of a NUL-terminated character array, without the NUL. -/
abbrev CString := List Char

/-- Capacity of the arrays `domain` and `page`, and the largest accepted URL length. -/
def MAX_URL_LEN : Nat := 2048

/-- Capacity of the array `port`. -/
def MAX_PORT_LEN : Nat := 6

/-- Default port. -/
def PORT : CString := ['8', '0']

/-- Default page. -/
def PAGE : CString := ['/']

/-- Ways in which the URL handling of `main` ends without reaching the request. -/
inductive ParseError where
  /-- Line 177: the URL is longer than `MAX_URL_LEN`. -/
  | urlTooLong
  /-- Line 197: the text before the first colon is `http` or `https`. -/
  | invalidScheme
  /-- A write past the end of a fixed array, or a read past the end of the URL. -/
  | undefinedBehaviour
  deriving DecidableEq, Repr

/-- Conversion of an `int` to `size_t`. -/
def toSizeT (z : Int) : Nat := (z % 2 ^ 64).toNat

/-- The call `snprintf(dst, n, "%s", src)` where `dst` is an array of `cap` characters
currently holding the string `dst`: nothing is written when `n` is zero, otherwise the
first `n - 1` characters of `src` followed by a NUL. -/
def snprintf (cap : Nat) (dst : CString) (n : Nat) (src : CString) :
    Except ParseError CString :=
  if n = 0 then .ok dst
  else if (src.take (n - 1)).length + 1 ≤ cap then .ok (src.take (n - 1))
  else .error .undefinedBehaviour

/-- The pointer `url + k`, valid up to the terminating NUL. -/
def offset (url : CString) (k : Nat) : Except ParseError CString :=
  if k ≤ url.length then .ok (url.drop k) else .error .undefinedBehaviour

/-- The variables written by the parsing loop. -/
structure ParseState where
  domain : CString
  port : CString
  page : CString
  domsize : Nat
  portsize : Nat
  pagesize : Nat
  deriving DecidableEq, Repr

/-- State after the three `memset` calls of lines 187 to 189. -/
def ParseState.init : ParseState := ⟨[], [], [], 0, 0, 0⟩

/-- One iteration of the loop of lines 192 to 229 at index `i`; the Boolean tells
whether the iteration ended with `break`. -/
def parseStep (url : CString) (i : Nat) (st : ParseState) :
    Except ParseError (ParseState × Bool) :=
  if url[i]? = some ':' ∧ st.domain = [] then
    match snprintf MAX_URL_LEN st.domain (i + 1) url with
    | .error e => .error e
    | .ok domain =>
      if domain = "http".toList ∨ domain = "https".toList then .error .invalidScheme
      else .ok ({ st with domain := domain, domsize := domain.length }, false)
  else if url[i]? = some '/' ∧ st.port = [] then
    if st.domain = [] then
      let cpysiz := if i + 1 = url.length then i + 1 else i
      match snprintf MAX_URL_LEN st.domain cpysiz url with
      | .error e => .error e
      | .ok domain => .ok ({ st with domain := domain, domsize := domain.length }, false)
    else
      match offset url (st.domsize + 1) with
      | .error e => .error e
      | .ok src =>
        match snprintf MAX_PORT_LEN st.port (toSizeT ((i : Int) - st.domsize)) src with
        | .error e => .error e
        | .ok port => .ok ({ st with port := port, portsize := port.length }, false)
  else if i + 1 = url.length ∧ st.page = [] then
    if st.domain = [] then
      match snprintf MAX_URL_LEN st.domain (i + 2) url with
      | .error e => .error e
      | .ok domain => .ok ({ st with domain := domain, domsize := domain.length }, true)
    else
      match offset url (st.domsize + st.portsize + 2) with
      | .error e => .error e
      | .ok src =>
        match snprintf MAX_URL_LEN st.page
            (toSizeT ((i : Int) - st.domsize - st.portsize)) src with
        | .error e => .error e
        | .ok page => .ok ({ st with page := page, pagesize := page.length }, true)
  else .ok (st, false)

/-- The loop of lines 192 to 229: `k` iterations remain and the next index is `i`. -/
def parseLoop (url : CString) : Nat → Nat → ParseState → Except ParseError ParseState
  | 0, _, st => .ok st
  | k + 1, i, st =>
    match parseStep url i st with
    | .error e => .error e
    | .ok (st', true) => .ok st'
    | .ok (st', false) => parseLoop url k (i + 1) st'

/-- The strings handed to the request construction and to `getsock`. -/
structure ParsedTarget where
  domain : CString
  port : CString
  page : CString
  deriving DecidableEq, Repr

/-- Lines 186 to 234: clear the arrays, scan the URL, set the defaults. -/
def parseUrl (url : CString) : Except ParseError ParsedTarget :=
  match parseLoop url url.length 0 ParseState.init with
  | .error e => .error e
  | .ok st =>
    .ok { domain := st.domain
          port := if st.portsize = 0 then PORT else st.port
          page := if st.pagesize = 0 then PAGE else st.page }

/-- Lines 176 to 234: the length check of `main` followed by the decomposition. -/
def checkedParse (url : CString) : Except ParseError ParsedTarget :=
  if url.length > MAX_URL_LEN then .error .urlTooLong else parseUrl url

/-! ## Request construction (`main`, lines 236 to 239) -/

/-- The `sprintf` of line 238 into the buffer of `urlsize + 128` characters. -/
def formRequest (urlsize : Nat) (page domain : CString) : Except ParseError CString :=
  let request := "GET /".toList ++ page ++ " HTTP/1.1\r\nHost: ".toList ++ domain
    ++ "\r\n\r\n".toList
  if request.length + 1 ≤ urlsize + 128 then .ok request else .error .undefinedBehaviour

/-- Lines 237 to 238 applied to the decomposed URL: only `page` and `domain` are
passed to `sprintf`. -/
def requestOf (urlsize : Nat) (t : ParsedTarget) : Except ParseError CString :=
  formRequest urlsize t.page t.domain

/-! ## Arithmetic of the type `double` -/

/-- The quotient `n / d` rounded to the nearest integer, a tie going to the even one. -/
def roundHalfEven (n d : Nat) : Nat :=
  if 2 * (n % d) < d then n / d
  else if d < 2 * (n % d) then n / d + 1
  else if (n / d) % 2 = 0 then n / d
  else n / d + 1

/-- Number of binary digits of `n`; the first argument bounds the recursion. -/
def bitLength : Nat → Nat → Nat
  | 0, _ => 0
  | fuel + 1, n => if n = 0 then 0 else bitLength fuel (n / 2) + 1

/-- The integer `k` with `2 ^ k ≤ p / q < 2 ^ (k + 1)`, for positive `p` and `q`. -/
def floorLog2 (p q : Nat) : Int :=
  let k : Int := (bitLength p p : Int) - (bitLength q q : Int)
  if q * 2 ^ k.toNat ≤ p * 2 ^ (-k).toNat then k else k - 1

/-- Rounding of a real result to the type `double` (binary64: 53 significant bits,
least exponent -1074, to nearest, ties to even). Results beyond the largest finite
`double` are not modelled; sums of at most `INT_MAX` times of at most `INT_MAX`
milliseconds stay far below it. -/
def roundDouble (x : ℚ) : ℚ :=
  if x = 0 then 0
  else
    let p := x.num.natAbs
    let q := x.den
    let e : Int := max (floorLog2 p q - 52) (-1074)
    let m := roundHalfEven (p * 2 ^ (-e).toNat) (q * 2 ^ e.toNat)
    let v : ℚ := ((m * 2 ^ e.toNat : Nat) : ℚ) / ((2 ^ (-e).toNat : Nat) : ℚ)
    if x < 0 then -v else v

/-- Addition of two `double` values. -/
def fadd (x y : ℚ) : ℚ := roundDouble (x + y)

/-- Division of a `double` by an `int` converted to `double`. -/
def fdiv (x : ℚ) (n : Nat) : ℚ := roundDouble (x / n)

/-! ## Measurement records and the probe loop (`main`, lines 251 to 288) -/

/-- The record kept for one request (lines 18 to 23). -/
structure ping where
  id : Int
  resptime : ℚ
  respsize : Int
  errcode : Int
  deriving DecidableEq, Repr

/-- What one iteration of the probe loop observes: the value of `elapsed` computed at
line 269 from the two clock readings, the result of `read`, and the value of `errno`
when lines 276 and 281 read it. -/
structure Attempt where
  elapsed : ℚ
  buflen : Int
  errno : Int
  deriving DecidableEq, Repr

/-- Largest `int`. -/
def INT_MAX : Int := 2147483647

/-- Smallest `int`. -/
def INT_MIN : Int := -2147483648

/-- The variables updated by the probe loop, with the buffers handed to `send`. -/
structure ProbeState where
  meanresp : ℚ
  slowresp : ℚ
  fastresp : ℚ
  maxresp : Int
  minresp : Int
  errrate : ℚ
  pings : List ping
  sent : List CString
  deriving Repr

/-- Initial values of lines 122 to 124. -/
def ProbeState.init : ProbeState :=
  { meanresp := 0, slowresp := INT_MIN, fastresp := INT_MAX, maxresp := INT_MIN,
    minresp := INT_MAX, errrate := 0, pings := [], sent := [] }

/-- Iteration `i` of the loop of lines 255 to 285. -/
def probeStep (request : CString) (reqsize : Nat) (i : Nat) (a : Attempt)
    (s : ProbeState) : ProbeState :=
  { meanresp := fadd s.meanresp a.elapsed
    slowresp := if a.elapsed > s.slowresp then a.elapsed else s.slowresp
    fastresp := if a.elapsed < s.fastresp then a.elapsed else s.fastresp
    maxresp := if a.buflen > s.maxresp then a.buflen else s.maxresp
    minresp := if a.buflen < s.minresp then a.buflen else s.minresp
    errrate := s.errrate + (if a.errno = 0 then 0 else 1)
    pings := s.pings ++
      [{ id := (i : Int) + 1, resptime := a.elapsed, respsize := a.buflen,
         errcode := a.errno }]
    sent := s.sent ++ [request.take reqsize] }

/-- The loop of lines 255 to 285, one iteration for each observed attempt, starting
at index `i`. -/
def probeLoop (request : CString) (reqsize : Nat) :
    Nat → List Attempt → ProbeState → ProbeState
  | _, [], s => s
  | i, a :: rest, s => probeLoop request reqsize (i + 1) rest (probeStep request reqsize i a s)

/-! ## Sorting and the report (`main`, lines 286 to 316) -/

/-- Comparison by time (lines 107 to 109): 1 when the first time is larger, else 0. -/
def comptime (p1 p2 : ping) : Int := if p1.resptime > p2.resptime then 1 else 0

/-- Comparison by id (lines 112 to 114): 1 when the first id is larger, else 0. -/
def compid (p1 p2 : ping) : Int := if p1.id > p2.id then 1 else 0

/-- The merging loop of the C library's merge sort: while both runs are non-empty the
head of the first run is taken when the comparison function returns a value that is
not positive, otherwise the head of the second; what remains is appended. The first
argument bounds the number of iterations. -/
def mergeRuns {α : Type} (cmp : α → α → Int) : Nat → List α → List α → List α
  | 0, b1, b2 => b1 ++ b2
  | _ + 1, [], b2 => b2
  | _ + 1, x :: b1, [] => x :: b1
  | fuel + 1, x :: b1, y :: b2 =>
    if cmp x y ≤ 0 then x :: mergeRuns cmp fuel b1 (y :: b2)
    else y :: mergeRuns cmp fuel (x :: b1) b2

/-- The recursive merge sort of the C library: an array of at most one element is
left alone, otherwise the first `n / 2` elements and the rest are sorted and merged.
The first argument bounds the recursion depth. -/
def msort {α : Type} (cmp : α → α → Int) : Nat → List α → List α
  | 0, b => b
  | fuel + 1, b =>
    if b.length ≤ 1 then b
    else
      mergeRuns cmp b.length (msort cmp fuel (b.take (b.length / 2)))
        (msort cmp fuel (b.drop (b.length / 2)))

/-- The library function `qsort`, which is not part of the repository. It is taken to
be the merge sort of the GNU C library, which looks only at whether the comparison
function returns a value that is not positive. -/
def qsort {α : Type} (cmp : α → α → Int) (b : List α) : List α := msort cmp b.length b

/-- Lines 293 to 296: the median of the array sorted by time. -/
def median (pings : List ping) (profile : Nat) : Option ℚ :=
  if profile % 2 = 0 then
    match pings[profile / 2 - 1]?, pings[profile / 2]? with
    | some a, some b => some ((a.resptime + b.resptime) / 2)
    | _, _ => none
  else
    match pings[profile / 2]? with
    | some a => some a.resptime
    | none => none

/-- The values printed by lines 299 to 316; `errors` holds the id and error code of
each line printed by the final loop. -/
structure Report where
  fastresp : ℚ
  slowresp : ℚ
  meanresp : ℚ
  medresp : ℚ
  maxresp : Int
  minresp : Int
  posrate : ℚ
  errors : List (Int × Int)
  deriving DecidableEq, Repr

/-- Lines 251 to 316 for a run whose attempts observe `attempts`; the profile is the
number of attempts. A profile of 0 is refused at line 181. -/
def report (request : CString) (reqsize : Nat) (attempts : List Attempt) : Option Report :=
  let profile := attempts.length
  if profile = 0 then none
  else
    let s := probeLoop request reqsize 0 attempts ProbeState.init
    let byTime := qsort comptime s.pings
    match median byTime profile with
    | none => none
    | some medresp =>
      let byId := qsort compid byTime
      some
        { fastresp := s.fastresp
          slowresp := s.slowresp
          meanresp := fdiv s.meanresp profile
          medresp := medresp
          maxresp := s.maxresp
          minresp := s.minresp
          posrate := 1 - s.errrate / profile
          errors := (byId.filter (fun p => p.errcode ≠ 0)).map (fun p => (p.id, p.errcode)) }

/-- Reference definition: the records of a run in the order of their creation, the
first one carrying the id `i + 1`. -/
def records : Nat → List Attempt → List ping
  | _, [] => []
  | i, a :: rest =>
    { id := (i : Int) + 1, resptime := a.elapsed, respsize := a.buflen, errcode := a.errno }
      :: records (i + 1) rest

/-- What holds of the variables before every iteration of the loop. -/
def LoopInv (url : CString) (st : ParseState) : Prop :=
  st.page = [] ∧ st.pagesize = 0 ∧ (st.domain = [] → st.port = []) ∧
  st.domsize = st.domain.length ∧ st.domain.length ≤ url.length

/-! ## Basic facts about the parsing loop -/

theorem toSizeT_sub (i d : Nat) (hd : d ≤ i) (hi : i < 2 ^ 64) :
    toSizeT ((i : Int) - d) = i - d := by
  unfold toSizeT
  have h1 : ((i : Int) - d) = ((i - d : Nat) : Int) := by omega
  rw [h1]
  have h2 : ((i - d : Nat) : Int) % 2 ^ 64 = ((i - d : Nat) : Int) := by
    apply Int.emod_eq_of_lt <;> omega
  rw [h2]
  simp

theorem toSizeT_sub_sub (i d p : Nat) (hd : d + p ≤ i) (hi : i < 2 ^ 64) :
    toSizeT ((i : Int) - d - p) = i - d - p := by
  have h := toSizeT_sub i (d + p) hd hi
  have h1 : ((i : Int) - d - p) = (i : Int) - ((d + p : Nat) : Int) := by push_cast; ring
  rw [h1, h]
  omega

/-- An iteration that matches none of the three guards leaves the state alone. -/
theorem parseStep_idle (url : CString) (i : Nat) (st : ParseState)
    (h1 : url[i]? = some ':' → st.domain ≠ [])
    (h2 : url[i]? = some '/' → st.port ≠ [])
    (h3 : i + 1 = url.length → st.page ≠ []) :
    parseStep url i st = .ok (st, false) := by
  unfold parseStep
  rw [if_neg (fun h => h1 h.1 h.2), if_neg (fun h => h2 h.1 h.2),
    if_neg (fun h => h3 h.1 h.2)]

/-- A run of `j` idle iterations is skipped. -/
theorem parseLoop_idle (url : CString) (st : ParseState) :
    ∀ (j k i : Nat),
      (∀ m, i ≤ m → m < i + j →
        (url[m]? = some ':' → st.domain ≠ []) ∧ (url[m]? = some '/' → st.port ≠ []) ∧
        (m + 1 = url.length → st.page ≠ [])) →
      parseLoop url (j + k) i st = parseLoop url k (i + j) st := by
  intro j
  induction j with
  | zero => intro k i _; simp
  | succ j ih =>
    intro k i h
    have hi := h i (Nat.le_refl i) (by omega)
    have e : j + 1 + k = (j + k) + 1 := by omega
    rw [e, parseLoop, parseStep_idle url i st hi.1 hi.2.1 hi.2.2]
    simp only []
    rw [ih k (i + 1) (fun m hm1 hm2 => h m (by omega) (by omega))]
    congr 1
    omega

theorem getElem?_ne_of_not_mem {l : List Char} {c : Char} (hc : c ∉ l) (m : Nat) :
    l[m]? ≠ some c := fun h => hc (List.getElem?_mem h)

/-! ## Properties of the URL decomposition -/

theorem snprintf_ok (cap : Nat) (dst : CString) (n : Nat) (src : CString)
    (hn : n ≠ 0) (hcap : (src.take (n - 1)).length + 1 ≤ cap) :
    snprintf cap dst n src = .ok (src.take (n - 1)) := by
  unfold snprintf
  rw [if_neg hn, if_pos hcap]

/-- First branch: a colon while `domain` is empty. -/
theorem parseStep_colon (url : CString) (i : Nat) (st : ParseState)
    (hc : url[i]? = some ':') (hd : st.domain = []) (hcap : i < MAX_URL_LEN) :
    parseStep url i st =
      if url.take i = "http".toList ∨ url.take i = "https".toList then .error .invalidScheme
      else .ok ({ st with domain := url.take i, domsize := (url.take i).length }, false) := by
  unfold parseStep
  rw [if_pos ⟨hc, hd⟩, snprintf_ok _ _ _ _ (by omega)
    (by have := List.length_take_le (i + 1 - 1) url; omega)]
  simp only [Nat.add_sub_cancel]

/-- Second branch, `domain` empty: `domain` receives `cpysiz - 1` characters. -/
theorem parseStep_slash_nodomain (url : CString) (i : Nat) (st : ParseState)
    (hc : url[i]? = some '/') (hp : st.port = []) (hd : st.domain = [])
    (hcap : i < MAX_URL_LEN) :
    parseStep url i st =
      .ok ({ st with
              domain := url.take ((if i + 1 = url.length then i + 1 else i) - 1)
              domsize := (url.take ((if i + 1 = url.length then i + 1 else i) - 1)).length },
            false) := by
  have h1 : ¬ (url[i]? = some ':' ∧ st.domain = []) := by
    rw [hc]; intro h; exact absurd h.1 (by decide)
  unfold parseStep
  rw [if_neg h1, if_pos ⟨hc, hp⟩, if_pos hd]
  simp only []
  by_cases hz : (if i + 1 = url.length then i + 1 else i) = 0
  · rw [hz, snprintf, if_pos rfl, hd]; rfl
  · rw [snprintf_ok _ _ _ _ hz (by
      have := List.length_take_le ((if i + 1 = url.length then i + 1 else i) - 1) url
      split at this <;> split <;> omega)]

/-- Second branch, `domain` set: `port` receives the text after the colon position. -/
theorem parseStep_slash_port (url : CString) (i : Nat) (st : ParseState)
    (hc : url[i]? = some '/') (hp : st.port = []) (hd : st.domain ≠ [])
    (hoff : st.domsize + 1 ≤ url.length) (hlt : st.domsize < i) (hi : i < 2 ^ 64)
    (hcap : i - st.domsize ≤ MAX_PORT_LEN) :
    parseStep url i st =
      .ok ({ st with
              port := (url.drop (st.domsize + 1)).take (i - st.domsize - 1)
              portsize := ((url.drop (st.domsize + 1)).take (i - st.domsize - 1)).length },
            false) := by
  have h1 : ¬ (url[i]? = some ':' ∧ st.domain = []) := fun h => hd h.2
  unfold parseStep
  rw [if_neg h1, if_pos ⟨hc, hp⟩, if_neg hd, offset, if_pos hoff]
  simp only []
  rw [toSizeT_sub i st.domsize (by omega) hi, snprintf_ok _ _ _ _ (by omega) (by
    have := List.length_take_le (i - st.domsize - 1) (url.drop (st.domsize + 1))
    omega)]

/-- Third branch, `domain` empty: the whole URL becomes the domain. -/
theorem parseStep_last_nodomain (url : CString) (i : Nat) (st : ParseState)
    (h1 : url[i]? ≠ some ':') (h2 : url[i]? ≠ some '/')
    (hlast : i + 1 = url.length) (hpg : st.page = []) (hd : st.domain = [])
    (hcap : url.length < MAX_URL_LEN) :
    parseStep url i st = .ok ({ st with domain := url, domsize := url.length }, true) := by
  have ht : List.take (i + 2 - 1) url = url := List.take_of_length_le (by omega)
  unfold parseStep
  rw [if_neg (fun h => h1 h.1), if_neg (fun h => h2 h.1), if_pos ⟨hlast, hpg⟩, if_pos hd,
    snprintf_ok _ _ _ _ (by omega) (by rw [ht]; omega), ht]

/-- Third branch, `domain` set: `page` receives the text after domain and port. -/
theorem parseStep_last_page (url : CString) (i : Nat) (st : ParseState)
    (h1 : url[i]? = some ':' → st.domain ≠ []) (h2 : url[i]? = some '/' → st.port ≠ [])
    (hlast : i + 1 = url.length) (hpg : st.page = []) (hd : st.domain ≠ [])
    (hoff : st.domsize + st.portsize + 2 ≤ url.length) (hi : i < MAX_URL_LEN) :
    parseStep url i st =
      .ok ({ st with
              page := (url.drop (st.domsize + st.portsize + 2)).take
                (i - st.domsize - st.portsize - 1)
              pagesize := ((url.drop (st.domsize + st.portsize + 2)).take
                (i - st.domsize - st.portsize - 1)).length },
            true) := by
  unfold parseStep
  rw [if_neg (fun h => h1 h.1 h.2), if_neg (fun h => h2 h.1 h.2), if_pos ⟨hlast, hpg⟩,
    if_neg hd, offset, if_pos hoff]
  simp only []
  have hi64 : i < 2 ^ 64 := by rw [MAX_URL_LEN] at hi; omega
  rw [toSizeT_sub_sub i st.domsize st.portsize (by omega) hi64,
    snprintf_ok _ _ _ _ (by omega) (by
      have := List.length_take_le (i - st.domsize - st.portsize - 1)
        (url.drop (st.domsize + st.portsize + 2))
      rw [MAX_URL_LEN] at hi ⊢
      omega)]

/-! ## Properties of the URL decomposition -/

theorem parseUrl_host_only (h : CString) (hne : h ≠ []) (hcolon : ':' ∉ h) (hslash : '/' ∉ h)
    (hlen : h.length < 2048) :
    parseUrl h = .ok ⟨h, PORT, PAGE⟩ := by
  obtain ⟨n, hn⟩ : ∃ n, h.length = n + 1 := by
    cases h with
    | nil => exact absurd rfl hne
    | cons a t => exact ⟨t.length, rfl⟩
  have idle := parseLoop_idle h ParseState.init n 1 0 (by
    intro m _ hm
    refine ⟨fun e => absurd e (getElem?_ne_of_not_mem hcolon m),
      fun e => absurd e (getElem?_ne_of_not_mem hslash m), fun e => by omega⟩)
  rw [Nat.zero_add] at idle
  unfold parseUrl
  rw [hn, idle, parseLoop, parseStep_last_nodomain h n _ (getElem?_ne_of_not_mem hcolon n)
    (getElem?_ne_of_not_mem hslash n) hn.symm rfl rfl hlen]
  rfl

theorem parseUrl_host_slash (h : CString) (hcolon : ':' ∉ h)
    (hslash : '/' ∉ h) (hlen : h.length < 2048) :
    parseUrl (h ++ ['/']) = .ok ⟨h, PORT, PAGE⟩ := by
  have hl : (h ++ ['/']).length = h.length + 1 := by simp
  have idle := parseLoop_idle (h ++ ['/']) ParseState.init h.length 1 0 (by
    intro m _ hm
    rw [List.getElem?_append_left (by omega)]
    refine ⟨fun e => absurd e (getElem?_ne_of_not_mem hcolon m),
      fun e => absurd e (getElem?_ne_of_not_mem hslash m), fun e => by omega⟩)
  rw [Nat.zero_add] at idle
  unfold parseUrl
  rw [hl, idle, parseLoop, parseStep_slash_nodomain (h ++ ['/']) h.length _
    (List.getElem?_concat_length h '/') rfl rfl hlen, if_pos hl.symm]
  simp [parseLoop, ParseState.init]

theorem parseUrl_host_port_path (h p q : CString)
    (hne : h ≠ []) (hcolon : ':' ∉ h) (hslash : '/' ∉ h)
    (hscheme : h ≠ "http".toList ∧ h ≠ "https".toList)
    (pne : p ≠ []) (pdig : ∀ c ∈ p, c.isDigit = true) (plen : p.length ≤ 5)
    (qne : q ≠ [])
    (hlen : (h ++ ':' :: (p ++ '/' :: q)).length ≤ 2048) :
    parseUrl (h ++ ':' :: (p ++ '/' :: q)) = .ok ⟨h, p, q⟩ := by
  obtain ⟨n, hn⟩ : ∃ n, q.length = n + 1 := by
    cases q with
    | nil => exact absurd rfl qne
    | cons a t => exact ⟨t.length, rfl⟩
  have hH : 0 < h.length := List.length_pos.mpr hne
  have hP : 0 < p.length := List.length_pos.mpr pne
  have pslash : '/' ∉ p := fun hm => absurd (pdig _ hm) (by decide)
  generalize hu : h ++ ':' :: (p ++ '/' :: q) = url at hlen ⊢
  have hl : url.length = h.length + ((p.length + ((n + 1) + 1)) + 1) := by
    rw [← hu]; simp [hn]
  have g0 : ∀ m, m < h.length → url[m]? = h[m]? := fun m hm => by
    rw [← hu, List.getElem?_append_left hm]
  have g1 : url[h.length]? = some ':' := by
    rw [← hu, List.getElem?_append_right (Nat.le_refl _)]; simp
  have g2 : ∀ m, h.length + 1 ≤ m → m < h.length + 1 + p.length →
      url[m]? = p[m - (h.length + 1)]? := fun m hm1 hm2 => by
    rw [← hu, List.getElem?_append_right (by omega)]
    obtain ⟨d, rfl⟩ : ∃ d, m = h.length + 1 + d := ⟨m - (h.length + 1), by omega⟩
    have e1 : h.length + 1 + d - h.length = d + 1 := by omega
    have e2 : h.length + 1 + d - (h.length + 1) = d := by omega
    rw [e1, e2, List.getElem?_cons_succ, List.getElem?_append_left (by omega)]
  have g3 : url[h.length + 1 + p.length]? = some '/' := by
    rw [← hu, List.getElem?_append_right (by omega)]
    have e1 : h.length + 1 + p.length - h.length = p.length + 1 := by omega
    rw [e1, List.getElem?_cons_succ, List.getElem?_append_right (Nat.le_refl _)]
    simp
  have t1 : url.take h.length = h := by rw [← hu, List.take_left]
  have d1 : url.drop (h.length + 1) = p ++ '/' :: q := by
    rw [← hu, List.drop_append]; rfl
  have d2 : url.drop (h.length + p.length + 2) = q := by
    have e : h.length + p.length + 2 = (h.length + 1) + (p.length + 1) := by omega
    rw [e, ← List.drop_drop, d1, List.drop_append]; rfl
  -- the characters of the host
  have idle1 := parseLoop_idle url ParseState.init h.length
    ((p.length + ((n + 1) + 1)) + 1) 0 (by
      intro m _ hm
      rw [g0 m (by omega)]
      exact ⟨fun e => absurd e (getElem?_ne_of_not_mem hcolon _),
        fun e => absurd e (getElem?_ne_of_not_mem hslash _), fun e => by omega⟩)
  rw [Nat.zero_add] at idle1
  -- the colon
  have step1 : parseStep url h.length ParseState.init
      = .ok (⟨h, [], [], h.length, 0, 0⟩, false) := by
    rw [parseStep_colon url h.length _ g1 rfl (by rw [MAX_URL_LEN]; omega), t1,
      if_neg (fun e => e.elim hscheme.1 hscheme.2)]
    rfl
  -- the digits of the port
  have idle2 := parseLoop_idle url ⟨h, [], [], h.length, 0, 0⟩ p.length ((n + 1) + 1)
    (h.length + 1) (by
      intro m hm1 hm2
      rw [g2 m hm1 hm2]
      exact ⟨fun _ => hne, fun e => absurd e (getElem?_ne_of_not_mem pslash _),
        fun e => by omega⟩)
  -- the slash
  have step2 : parseStep url (h.length + 1 + p.length) ⟨h, [], [], h.length, 0, 0⟩
      = .ok (⟨h, p, [], h.length, p.length, 0⟩, false) := by
    rw [parseStep_slash_port url _ _ g3 rfl hne (by simp only []; omega)
      (by simp only []; omega) (by omega) (by simp only [MAX_PORT_LEN]; omega)]
    simp only []
    have e : h.length + 1 + p.length - h.length - 1 = p.length := by omega
    rw [d1, e, List.take_left]
  -- the path up to its last character
  have idle3 := parseLoop_idle url ⟨h, p, [], h.length, p.length, 0⟩ n 1
    (h.length + 1 + p.length + 1) (by
      intro m hm1 hm2
      exact ⟨fun _ => hne, fun _ => pne, fun e => by omega⟩)
  -- the last character
  have step3 : parseStep url (h.length + 1 + p.length + 1 + n)
      ⟨h, p, [], h.length, p.length, 0⟩
      = .ok (⟨h, p, q, h.length, p.length, q.length⟩, true) := by
    rw [parseStep_last_page url _ _ (fun _ => hne) (fun _ => pne) (by omega) rfl hne
      (by simp only []; omega) (by rw [MAX_URL_LEN]; omega)]
    simp only []
    have e : h.length + 1 + p.length + 1 + n - h.length - p.length - 1 = q.length := by
      omega
    rw [d2, e, List.take_length]
  unfold parseUrl
  rw [hl, idle1, parseLoop, step1]
  simp only []
  rw [idle2, parseLoop, step2]
  simp only []
  rw [idle3, parseLoop, step3]
  simp only []
  rw [if_neg (by omega), if_neg (by omega)]

theorem snprintf_ne_scheme (cap : Nat) (dst : CString) (n : Nat) (src : CString) :
    snprintf cap dst n src ≠ .error .invalidScheme := by
  unfold snprintf
  split_ifs <;> simp

theorem offset_ne_scheme (url : CString) (k : Nat) :
    offset url k ≠ .error .invalidScheme := by
  unfold offset
  split_ifs <;> simp

/-- The only iteration that reports a scheme is a colon preceded by `http` or `https`. -/
theorem parseStep_invalidScheme (url : CString) (i : Nat) (st : ParseState)
    (h : parseStep url i st = .error .invalidScheme) :
    url[i]? = some ':' ∧ (url.take i = "http".toList ∨ url.take i = "https".toList) := by
  unfold parseStep at h
  by_cases c1 : url[i]? = some ':' ∧ st.domain = []
  · rw [if_pos c1] at h
    have hs : snprintf MAX_URL_LEN st.domain (i + 1) url = .ok (url.take i) ∨
        snprintf MAX_URL_LEN st.domain (i + 1) url = .error .undefinedBehaviour := by
      unfold snprintf
      split_ifs <;> simp_all
    rcases hs with hs | hs
    · rw [hs] at h
      by_cases c : url.take i = "http".toList ∨ url.take i = "https".toList
      · exact ⟨c1.1, c⟩
      · simp only [] at h
        rw [if_neg c] at h
        cases h
    · rw [hs] at h
      cases h
  · rw [if_neg c1] at h
    exfalso
    dsimp only at h
    split_ifs at h
    all_goals
      first
        | cases h
        | (split at h
           · rename_i e he
             cases h
             first
               | exact snprintf_ne_scheme _ _ _ _ he
               | exact offset_ne_scheme _ _ he
           · first
               | cases h
               | (split at h
                  · rename_i e he
                    cases h
                    exact snprintf_ne_scheme _ _ _ _ he
                  · cases h))

theorem parseLoop_invalidScheme (url : CString) :
    ∀ (k i : Nat) (st : ParseState), parseLoop url k i st = .error .invalidScheme →
      ∃ j, url[j]? = some ':' ∧ (url.take j = "http".toList ∨ url.take j = "https".toList) := by
  intro k
  induction k with
  | zero => intro i st h; simp [parseLoop] at h
  | succ k ih =>
    intro i st h
    rw [parseLoop] at h
    cases hs : parseStep url i st with
    | error e =>
      rw [hs] at h
      simp only [] at h
      cases h
      exact ⟨i, parseStep_invalidScheme url i st hs⟩
    | ok r =>
      obtain ⟨st', b⟩ := r
      rw [hs] at h
      cases b with
      | true => simp at h
      | false => exact ih (i + 1) st' h

/-! ## Inversion of one iteration -/

theorem snprintf_inv (cap : Nat) (dst : CString) (n : Nat) (src r : CString)
    (h : snprintf cap dst n src = .ok r) :
    (n = 0 ∧ r = dst) ∨ (n ≠ 0 ∧ r = src.take (n - 1) ∧ r.length + 1 ≤ cap) := by
  unfold snprintf at h
  split_ifs at h with h1 h2
  · left; exact ⟨h1, by cases h; rfl⟩
  · right; cases h; exact ⟨h1, rfl, h2⟩

theorem offset_inv (url : CString) (k : Nat) (src : CString) (h : offset url k = .ok src) :
    k ≤ url.length ∧ src = url.drop k := by
  unfold offset at h
  split_ifs at h with h1
  cases h
  exact ⟨h1, rfl⟩

/-- Every successful iteration is one of the five writes or leaves the state alone. -/
theorem parseStep_inv (url : CString) (i : Nat) (st st' : ParseState) (b : Bool)
    (h : parseStep url i st = .ok (st', b)) :
    (url[i]? = some ':' ∧ st.domain = [] ∧ b = false ∧
      st' = { st with domain := url.take i, domsize := (url.take i).length }) ∨
    (url[i]? = some '/' ∧ st.port = [] ∧ st.domain = [] ∧ b = false ∧
      st' = { st with
        domain := url.take ((if i + 1 = url.length then i + 1 else i) - 1)
        domsize := (url.take ((if i + 1 = url.length then i + 1 else i) - 1)).length }) ∨
    (url[i]? = some '/' ∧ st.port = [] ∧ st.domain ≠ [] ∧ b = false ∧
      ∃ port, st' = { st with port := port, portsize := port.length }) ∨
    (i + 1 = url.length ∧ st.page = [] ∧ st.domain = [] ∧ b = true ∧
      st' = { st with domain := url, domsize := url.length }) ∨
    (i + 1 = url.length ∧ st.page = [] ∧ st.domain ≠ [] ∧ b = true ∧
      ∃ page, page.length + (st.domsize + st.portsize + 2) ≤ url.length ∧
        st' = { st with page := page, pagesize := page.length }) ∨
    (b = false ∧ st' = st ∧ ¬ (i + 1 = url.length ∧ st.page = [])) := by
  unfold parseStep at h
  by_cases c1 : url[i]? = some ':' ∧ st.domain = []
  · rw [if_pos c1] at h
    left
    split at h
    · cases h
    · rename_i d hd
      split_ifs at h
      cases h
      rcases snprintf_inv _ _ _ _ _ hd with ⟨h0, _⟩ | ⟨_, hr, _⟩
      · omega
      · rw [Nat.add_sub_cancel] at hr
        subst hr
        exact ⟨c1.1, c1.2, rfl, rfl⟩
  · rw [if_neg c1] at h
    right
    by_cases c2 : url[i]? = some '/' ∧ st.port = []
    · rw [if_pos c2] at h
      by_cases cd : st.domain = []
      · rw [if_pos cd] at h
        left
        dsimp only at h
        split at h
        · cases h
        · rename_i d hd
          cases h
          refine ⟨c2.1, c2.2, cd, rfl, ?_⟩
          rcases snprintf_inv _ _ _ _ _ hd with ⟨h0, hr⟩ | ⟨_, hr, _⟩
          · rw [h0, hr, cd]; rfl
          · rw [hr]
      · rw [if_neg cd] at h
        right; left
        split at h
        · cases h
        · split at h
          · cases h
          · rename_i port _
            cases h
            exact ⟨c2.1, c2.2, cd, rfl, port, rfl⟩
    · rw [if_neg c2] at h
      right; right
      by_cases c3 : i + 1 = url.length ∧ st.page = []
      · rw [if_pos c3] at h
        by_cases cd : st.domain = []
        · rw [if_pos cd] at h
          left
          split at h
          · cases h
          · rename_i d hd
            cases h
            refine ⟨c3.1, c3.2, cd, rfl, ?_⟩
            rcases snprintf_inv _ _ _ _ _ hd with ⟨h0, _⟩ | ⟨_, hr, _⟩
            · omega
            · have ht : List.take (i + 2 - 1) url = url :=
                List.take_of_length_le (by omega)
              rw [ht] at hr
              rw [hr]
        · rw [if_neg cd] at h
          right; left
          split at h
          · cases h
          · rename_i src hsrc
            split at h
            · cases h
            · rename_i page hpage
              cases h
              obtain ⟨hoff, hs⟩ := offset_inv _ _ _ hsrc
              refine ⟨c3.1, c3.2, cd, rfl, page, ?_, rfl⟩
              rcases snprintf_inv _ _ _ _ _ hpage with ⟨_, hr⟩ | ⟨_, hr, _⟩
              · rw [hr, c3.2]; simpa using hoff
              · have := List.length_take_le' (toSizeT ((i : Int) - st.domsize - st.portsize) - 1)
                  src
                rw [← hr, hs, List.length_drop] at this
                omega
      · rw [if_neg c3] at h
        right; right
        cases h
        exact ⟨rfl, rfl, c3⟩

/-! ## Invariant of the parsing loop -/

theorem loopInv_init (url : CString) : LoopInv url ParseState.init :=
  ⟨rfl, rfl, fun _ => rfl, rfl, Nat.zero_le _⟩

/-- What the loop guarantees on exit: `domain` and `page` together fit in the URL,
`pagesize` is the length of `page`, a `domain` once set stays set, and a loop that
still has an iteration to run at an index other than 0 sets `domain`. -/
theorem parseLoop_spec (url : CString) :
    ∀ (k i : Nat) (st st' : ParseState), i + k = url.length → LoopInv url st →
      parseLoop url k i st = .ok st' →
      st'.domain.length + st'.page.length ≤ url.length ∧
      st'.pagesize = st'.page.length ∧
      (st.domain ≠ [] → st'.domain ≠ []) ∧
      (1 ≤ k → 1 ≤ i → st'.domain ≠ []) := by
  intro k
  induction k with
  | zero =>
    intro i st st' _ inv h
    rw [parseLoop] at h
    cases h
    obtain ⟨hpg, hps, _, _, hdl⟩ := inv
    refine ⟨by rw [hpg]; simpa using hdl, by rw [hpg, hps]; rfl, fun hd => hd, fun hk => ?_⟩
    omega
  | succ k ih =>
    intro i st st' hik inv h
    obtain ⟨hpg, hps, hport, hds, hdl⟩ := inv
    rw [parseLoop] at h
    cases hs : parseStep url i st with
    | error e => rw [hs] at h; cases h
    | ok r =>
      obtain ⟨st1, b⟩ := r
      rw [hs] at h
      have hlen : ∀ n, (url.take n).length ≤ url.length := fun n => List.length_take_le' n url
      rcases parseStep_inv url i st st1 b hs with
        ⟨_, hd, hb, e⟩ | ⟨_, _, hd, hb, e⟩ | ⟨_, _, hd, hb, port, e⟩ | ⟨hl, _, hd, hb, e⟩ |
        ⟨hl, _, hd, hb, page, hpl, e⟩ | ⟨hb, e, hn⟩
      · -- colon
        subst hb
        simp only [] at h
        have inv1 : LoopInv url st1 := by
          subst e
          exact ⟨hpg, hps, fun _ => hport hd, rfl, hlen _⟩
        obtain ⟨r1, r2, r3, r4⟩ := ih (i + 1) st1 st' (by omega) inv1 h
        refine ⟨r1, r2, fun hne => absurd hd hne, fun _ hi => ?_⟩
        by_cases hk : 1 ≤ k
        · exact r4 hk (by omega)
        · apply r3
          subst e
          intro hnil
          have := congrArg List.length hnil
          simp only [List.length_take, List.length_nil] at this
          omega
      · -- slash, domain empty
        subst hb
        simp only [] at h
        have inv1 : LoopInv url st1 := by
          subst e
          exact ⟨hpg, hps, fun _ => hport hd, rfl, hlen _⟩
        obtain ⟨r1, r2, r3, r4⟩ := ih (i + 1) st1 st' (by omega) inv1 h
        refine ⟨r1, r2, fun hne => absurd hd hne, fun _ hi => ?_⟩
        by_cases hk : 1 ≤ k
        · exact r4 hk (by omega)
        · apply r3
          subst e
          intro hnil
          have := congrArg List.length hnil
          rw [if_pos (by omega)] at this
          simp only [List.length_take, List.length_nil] at this
          omega
      · -- slash, domain set
        subst hb
        simp only [] at h
        have inv1 : LoopInv url st1 := by
          subst e
          exact ⟨hpg, hps, fun hnil => absurd hnil hd, hds, hdl⟩
        obtain ⟨r1, r2, r3, _⟩ := ih (i + 1) st1 st' (by omega) inv1 h
        have hd1 : st1.domain ≠ [] := by subst e; exact hd
        exact ⟨r1, r2, fun _ => r3 hd1, fun _ _ => r3 hd1⟩
      · -- last character, domain empty
        subst hb
        simp only [] at h
        cases h
        subst e
        have hne : url ≠ [] := by
          intro hnil
          rw [hnil] at hl
          simp at hl
        exact ⟨by simp [hpg], by simp [hpg, hps], fun _ => hne, fun _ _ => hne⟩
      · -- last character, domain set
        subst hb
        simp only [] at h
        cases h
        subst e
        refine ⟨?_, rfl, fun _ => hd, fun _ _ => hd⟩
        simp only []
        omega
      · -- idle
        subst hb
        simp only [] at h
        subst e
        obtain ⟨r1, r2, r3, r4⟩ := ih (i + 1) st1 st' (by omega) ⟨hpg, hps, hport, hds, hdl⟩ h
        refine ⟨r1, r2, r3, fun _ hi => ?_⟩
        by_cases hk : 1 ≤ k
        · exact r4 hk (by omega)
        · exact absurd ⟨by omega, hpg⟩ hn

/-! ## The sort -/

section Sorting

variable {α : Type} (cmp : α → α → Int)

theorem mergeRuns_perm : ∀ (fuel : Nat) (b1 b2 : List α),
    (mergeRuns cmp fuel b1 b2).Perm (b1 ++ b2) := by
  intro fuel
  induction fuel with
  | zero => intro b1 b2; exact List.Perm.refl _
  | succ fuel ih =>
    intro b1 b2
    cases b1 with
    | nil => exact List.Perm.refl _
    | cons x b1 =>
      cases b2 with
      | nil => simp [mergeRuns]
      | cons y b2 =>
        rw [mergeRuns]
        split_ifs
        · exact (ih b1 (y :: b2)).cons x
        · exact ((ih (x :: b1) b2).cons y).trans List.perm_middle.symm

theorem mergeRuns_sorted
    (total : ∀ a b, cmp a b ≤ 0 ∨ cmp b a ≤ 0)
    (trans : ∀ a b c, cmp a b ≤ 0 → cmp b c ≤ 0 → cmp a c ≤ 0) :
    ∀ (fuel : Nat) (b1 b2 : List α), b1.length + b2.length ≤ fuel →
      b1.Pairwise (fun a b => cmp a b ≤ 0) → b2.Pairwise (fun a b => cmp a b ≤ 0) →
      (mergeRuns cmp fuel b1 b2).Pairwise (fun a b => cmp a b ≤ 0) := by
  intro fuel
  induction fuel with
  | zero =>
    intro b1 b2 hlen h1 h2
    have e1 : b1 = [] := List.length_eq_zero.mp (by omega)
    have e2 : b2 = [] := List.length_eq_zero.mp (by omega)
    subst e1 e2
    exact List.Pairwise.nil
  | succ fuel ih =>
    intro b1 b2 hlen h1 h2
    cases b1 with
    | nil => exact h2
    | cons x b1 =>
      cases b2 with
      | nil => exact h1
      | cons y b2 =>
        rw [mergeRuns]
        have hx := List.pairwise_cons.mp h1
        have hy := List.pairwise_cons.mp h2
        simp only [List.length_cons] at hlen
        split_ifs with hxy
        · refine List.pairwise_cons.mpr ⟨fun z hz => ?_, ih b1 (y :: b2)
            (by simp only [List.length_cons]; omega) hx.2 h2⟩
          have hz' := (mergeRuns_perm cmp fuel b1 (y :: b2)).subset hz
          rcases List.mem_append.mp hz' with hz1 | hz2
          · exact hx.1 z hz1
          · rcases List.mem_cons.mp hz2 with rfl | hz3
            · exact hxy
            · exact trans x y z hxy (hy.1 z hz3)
        · have hyx : cmp y x ≤ 0 := (total x y).resolve_left hxy
          refine List.pairwise_cons.mpr ⟨fun z hz => ?_, ih (x :: b1) b2
            (by simp only [List.length_cons]; omega) h1 hy.2⟩
          have hz' := (mergeRuns_perm cmp fuel (x :: b1) b2).subset hz
          rcases List.mem_append.mp hz' with hz1 | hz2
          · rcases List.mem_cons.mp hz1 with rfl | hz3
            · exact hyx
            · exact trans y x z hyx (hx.1 z hz3)
          · exact hy.1 z hz2

theorem msort_perm : ∀ (fuel : Nat) (b : List α), (msort cmp fuel b).Perm b := by
  intro fuel
  induction fuel with
  | zero => intro b; exact List.Perm.refl _
  | succ fuel ih =>
    intro b
    rw [msort]
    split_ifs
    · exact List.Perm.refl _
    · refine (mergeRuns_perm cmp _ _ _).trans ?_
      have h := (ih (b.take (b.length / 2))).append (ih (b.drop (b.length / 2)))
      rwa [List.take_append_drop] at h

theorem msort_sorted
    (total : ∀ a b, cmp a b ≤ 0 ∨ cmp b a ≤ 0)
    (trans : ∀ a b c, cmp a b ≤ 0 → cmp b c ≤ 0 → cmp a c ≤ 0) :
    ∀ (fuel : Nat) (b : List α), b.length ≤ fuel + 1 →
      (msort cmp fuel b).Pairwise (fun a b => cmp a b ≤ 0) := by
  intro fuel
  induction fuel with
  | zero =>
    intro b hlen
    rw [msort]
    cases b with
    | nil => exact List.Pairwise.nil
    | cons x t =>
      have : t = [] := List.length_eq_zero.mp (by simp only [List.length_cons] at hlen; omega)
      subst this
      exact List.pairwise_singleton _ _
  | succ fuel ih =>
    intro b hlen
    rw [msort]
    split_ifs with h1
    · cases b with
      | nil => exact List.Pairwise.nil
      | cons x t =>
        have : t = [] := List.length_eq_zero.mp (by simp only [List.length_cons] at h1; omega)
        subst this
        exact List.pairwise_singleton _ _
    · have l1 : (b.take (b.length / 2)).length = b.length / 2 := by
        rw [List.length_take]; omega
      have l2 : (b.drop (b.length / 2)).length = b.length - b.length / 2 := List.length_drop _ _
      apply mergeRuns_sorted cmp total trans
      · rw [(msort_perm cmp fuel _).length_eq, (msort_perm cmp fuel _).length_eq, l1, l2]
        omega
      · exact ih _ (by rw [l1]; omega)
      · exact ih _ (by rw [l2]; omega)

theorem qsort_perm (b : List α) : (qsort cmp b).Perm b := msort_perm cmp _ b

theorem qsort_sorted
    (total : ∀ a b, cmp a b ≤ 0 ∨ cmp b a ≤ 0)
    (trans : ∀ a b c, cmp a b ≤ 0 → cmp b c ≤ 0 → cmp a c ≤ 0) (b : List α) :
    (qsort cmp b).Pairwise (fun a b => cmp a b ≤ 0) :=
  msort_sorted cmp total trans _ b (Nat.le_succ _)

end Sorting

theorem compid_le (a b : ping) : compid a b ≤ 0 ↔ a.id ≤ b.id := by
  unfold compid
  split_ifs with h
  · constructor
    · intro h0; omega
    · intro h1; omega
  · exact ⟨fun _ => by omega, fun _ => le_refl _⟩

/-- The second sort orders the ids ascending. -/
theorem qsort_compid_sorted (b : List ping) :
    ((qsort compid b).map ping.id).Pairwise (· ≤ ·) := by
  have h := qsort_sorted compid
    (fun a b => by rw [compid_le, compid_le]; exact le_total _ _)
    (fun a b c => by rw [compid_le, compid_le, compid_le]; exact le_trans) b
  rw [List.pairwise_map]
  exact h.imp (fun {a b} hab => (compid_le a b).mp hab)

/-! ## The probe loop -/

theorem probeLoop_pings (request : CString) (reqsize : Nat) :
    ∀ (attempts : List Attempt) (i : Nat) (s : ProbeState),
      (probeLoop request reqsize i attempts s).pings = s.pings ++ records i attempts := by
  intro attempts
  induction attempts with
  | nil => intro i s; simp [probeLoop, records]
  | cons a rest ih => intro i s; rw [probeLoop, ih]; simp [probeStep, records]

theorem probeLoop_sent (request : CString) (reqsize : Nat) :
    ∀ (attempts : List Attempt) (i : Nat) (s : ProbeState),
      (probeLoop request reqsize i attempts s).sent
        = s.sent ++ List.replicate attempts.length (request.take reqsize) := by
  intro attempts
  induction attempts with
  | nil => intro i s; simp [probeLoop]
  | cons a rest ih =>
    intro i s
    rw [probeLoop, ih]
    simp [probeStep, List.replicate_succ]

theorem records_length : ∀ (attempts : List Attempt) (i : Nat),
    (records i attempts).length = attempts.length := by
  intro attempts
  induction attempts with
  | nil => intro i; rfl
  | cons a rest ih => intro i; simp [records, ih]

theorem records_id_gt : ∀ (attempts : List Attempt) (i : Nat),
    ∀ p ∈ records i attempts, (i : Int) < p.id := by
  intro attempts
  induction attempts with
  | nil => intro i p hp; simp [records] at hp
  | cons a rest ih =>
    intro i p hp
    rw [records] at hp
    rcases List.mem_cons.mp hp with rfl | hp
    · simp
    · have := ih (i + 1) p hp
      push_cast at this
      omega

theorem records_ids_ascending : ∀ (attempts : List Attempt) (i : Nat),
    ((records i attempts).map ping.id).Pairwise (· < ·) := by
  intro attempts
  induction attempts with
  | nil => intro i; simp [records]
  | cons a rest ih =>
    intro i
    rw [records, List.map_cons, List.pairwise_cons]
    refine ⟨fun x hx => ?_, ih (i + 1)⟩
    obtain ⟨p, hp, rfl⟩ := List.mem_map.mp hx
    have := records_id_gt rest (i + 1) p hp
    push_cast at this
    simpa using this

/-! ## The median and the two sorted views -/

theorem median_spec (byTime : List ping) (n : Nat) (hlen : byTime.length = n) (hn : n ≠ 0) :
    ∃ m, median byTime n = some m ∧
      (n % 2 = 1 → (byTime.map ping.resptime)[n / 2]? = some m) ∧
      (n % 2 = 0 → ∃ a b, (byTime.map ping.resptime)[n / 2 - 1]? = some a ∧
        (byTime.map ping.resptime)[n / 2]? = some b ∧ m = (a + b) / 2) := by
  unfold median
  by_cases he : n % 2 = 0
  · have h1 : n / 2 - 1 < byTime.length := by omega
    have h2 : n / 2 < byTime.length := by omega
    rw [if_pos he, List.getElem?_eq_getElem h1, List.getElem?_eq_getElem h2]
    refine ⟨_, rfl, fun h => by omega, fun _ => ⟨_, _, ?_, ?_, rfl⟩⟩
    · rw [List.getElem?_map, List.getElem?_eq_getElem h1]; rfl
    · rw [List.getElem?_map, List.getElem?_eq_getElem h2]; rfl
  · have h2 : n / 2 < byTime.length := by omega
    rw [if_neg he, List.getElem?_eq_getElem h2]
    refine ⟨_, rfl, fun _ => ?_, fun h => absurd h he⟩
    rw [List.getElem?_map, List.getElem?_eq_getElem h2]; rfl

/-- A permutation of a list with pairwise distinct keys that lists the keys in the
same order is the list itself. -/
theorem eq_of_perm_of_map_eq {β : Type} (f : ping → β) (l l' : List ping)
    (hp : l.Perm l') (hm : l.map f = l'.map f) (hnd : (l'.map f).Nodup) : l = l' := by
  have hlen : l.length = l'.length := hp.length_eq
  apply List.ext_getElem hlen
  intro n h1 h2
  have e : f l[n] = f l'[n] := by
    have h3 : (l.map f)[n]? = (l'.map f)[n]? := by rw [hm]
    rw [List.getElem?_map, List.getElem?_map, List.getElem?_eq_getElem h1,
      List.getElem?_eq_getElem h2] at h3
    exact Option.some.inj h3
  exact List.inj_on_of_nodup_map hnd (hp.subset (List.getElem_mem h1)) (List.getElem_mem h2) e

/-- Sorting by time and then by id restores the order of creation. -/
theorem byId_eq_records (attempts : List Attempt) :
    qsort compid (qsort comptime (records 0 attempts)) = records 0 attempts := by
  have hp : (qsort compid (qsort comptime (records 0 attempts))).Perm (records 0 attempts) :=
    (qsort_perm compid _).trans (qsort_perm comptime _)
  have hasc := records_ids_ascending attempts 0
  have hm : (qsort compid (qsort comptime (records 0 attempts))).map ping.id
      = (records 0 attempts).map ping.id :=
    List.eq_of_perm_of_sorted (hp.map ping.id) (qsort_compid_sorted _)
      (hasc.imp (fun {a b} hab => le_of_lt hab))
  exact eq_of_perm_of_map_eq ping.id _ _ hp hm (hasc.imp (fun {a b} hab => ne_of_lt hab))

/-- The report of a non-empty run, field by field. -/
theorem report_eq (request : CString) (reqsize : Nat) (attempts : List Attempt) (m : ℚ)
    (hne : attempts ≠ [])
    (hm : median (qsort comptime (records 0 attempts)) attempts.length = some m) :
    report request reqsize attempts = some
      { fastresp := (probeLoop request reqsize 0 attempts ProbeState.init).fastresp
        slowresp := (probeLoop request reqsize 0 attempts ProbeState.init).slowresp
        meanresp := fdiv (probeLoop request reqsize 0 attempts ProbeState.init).meanresp
          attempts.length
        medresp := m
        maxresp := (probeLoop request reqsize 0 attempts ProbeState.init).maxresp
        minresp := (probeLoop request reqsize 0 attempts ProbeState.init).minresp
        posrate := 1 - (probeLoop request reqsize 0 attempts ProbeState.init).errrate
          / attempts.length
        errors := ((records 0 attempts).filter (fun p => p.errcode ≠ 0)).map
          (fun p => (p.id, p.errcode)) } := by
  have hl : attempts.length ≠ 0 := fun h => hne (List.length_eq_zero.mp h)
  have hpings : (probeLoop request reqsize 0 attempts ProbeState.init).pings
      = records 0 attempts := by
    rw [probeLoop_pings]; rfl
  unfold report
  simp only [hpings, hm, if_neg hl, byId_eq_records]

/-! ## Scheme rejection, empty domain, request -/

/-- A URL that starts with `http:` or `https:` is refused at the colon. -/
theorem parseUrl_scheme (h s : CString) (hh : h = "http".toList ∨ h = "https".toList) :
    parseUrl (h ++ ':' :: s) = .error .invalidScheme := by
  have hcolon : ':' ∉ h := by rcases hh with rfl | rfl <;> decide
  have hslash : '/' ∉ h := by rcases hh with rfl | rfl <;> decide
  have hlen : h.length < MAX_URL_LEN := by rcases hh with rfl | rfl <;> decide
  have hl : (h ++ ':' :: s).length = h.length + (s.length + 1) := by simp
  have idle := parseLoop_idle (h ++ ':' :: s) ParseState.init h.length (s.length + 1) 0 (by
    intro m _ hm
    rw [List.getElem?_append_left (by omega)]
    exact ⟨fun e => absurd e (getElem?_ne_of_not_mem hcolon m),
      fun e => absurd e (getElem?_ne_of_not_mem hslash m), fun e => by omega⟩)
  rw [Nat.zero_add] at idle
  have g1 : (h ++ ':' :: s)[h.length]? = some ':' := by
    rw [List.getElem?_append_right (Nat.le_refl _)]; simp
  unfold parseUrl
  rw [hl, idle, parseLoop, parseStep_colon _ _ _ g1 rfl hlen, List.take_left, if_pos hh]

/-- A colon at index `j` preceded by `h` makes `h` followed by a colon a prefix. -/
theorem prefix_of_colon (url h : CString) (j : Nat) (hc : url[j]? = some ':')
    (ht : url.take j = h) : (h ++ [':']) <+: url := by
  obtain ⟨hj, hv⟩ := List.getElem?_eq_some.mp hc
  refine ⟨url.drop (j + 1), ?_⟩
  have h1 : url.drop j = ':' :: url.drop (j + 1) := by
    rw [List.drop_eq_getElem_cons hj, hv]
  calc h ++ [':'] ++ url.drop (j + 1) = url.take j ++ (':' :: url.drop (j + 1)) := by
        rw [ht]; simp
    _ = url := by rw [← h1, List.take_append_drop]

theorem parseUrl_invalidScheme_iff (url : CString) :
    parseUrl url = .error .invalidScheme ↔
      ("http:".toList <+: url ∨ "https:".toList <+: url) := by
  constructor
  · intro h
    unfold parseUrl at h
    cases hl : parseLoop url url.length 0 ParseState.init with
    | ok st => rw [hl] at h; cases h
    | error e =>
      rw [hl] at h
      simp only [] at h
      cases h
      obtain ⟨j, hc, ht | ht⟩ := parseLoop_invalidScheme url _ _ _ hl
      · exact Or.inl (prefix_of_colon url _ j hc ht)
      · exact Or.inr (prefix_of_colon url _ j hc ht)
  · rintro (⟨s, rfl⟩ | ⟨s, rfl⟩)
    · exact parseUrl_scheme "http".toList s (Or.inl rfl)
    · exact parseUrl_scheme "https".toList s (Or.inr rfl)

theorem loopInv_step (url : CString) (i : Nat) (st st1 : ParseState)
    (hs : parseStep url i st = .ok (st1, false)) (inv : LoopInv url st) : LoopInv url st1 := by
  obtain ⟨hpg, hps, hport, hds, hdl⟩ := inv
  rcases parseStep_inv url i st st1 false hs with
    ⟨_, hd, _, e⟩ | ⟨_, _, hd, _, e⟩ | ⟨_, _, hd, _, port, e⟩ | ⟨_, _, _, hb, _⟩ |
    ⟨_, _, _, hb, _⟩ | ⟨_, e, _⟩
  · subst e; exact ⟨hpg, hps, fun _ => hport hd, rfl, List.length_take_le' _ _⟩
  · subst e; exact ⟨hpg, hps, fun _ => hport hd, rfl, List.length_take_le' _ _⟩
  · subst e; exact ⟨hpg, hps, fun hnil => absurd hnil hd, hds, hdl⟩
  · cases hb
  · cases hb
  · subst e; exact ⟨hpg, hps, hport, hds, hdl⟩

/-- The decomposition returns an empty domain for three URLs only. -/
theorem parseUrl_domain_nil (url : CString) (t : ParsedTarget) (h : parseUrl url = .ok t)
    (hd : t.domain = []) : url = [] ∨ url = ['/'] ∨ url = [':'] := by
  unfold parseUrl at h
  cases hl : parseLoop url url.length 0 ParseState.init with
  | error e => rw [hl] at h; cases h
  | ok st' =>
    rw [hl] at h
    simp only [] at h
    cases h
    simp only [] at hd
    cases url with
    | nil => exact Or.inl rfl
    | cons c rest =>
      right
      rw [List.length_cons, parseLoop] at hl
      cases hs : parseStep (c :: rest) 0 ParseState.init with
      | error e => rw [hs] at hl; cases hl
      | ok r =>
        obtain ⟨st1, b⟩ := r
        rw [hs] at hl
        have hc : (c :: rest)[0]? = some c := List.getElem?_cons_zero
        cases b with
        | true =>
          simp only [] at hl
          cases hl
          rcases parseStep_inv _ _ _ _ _ hs with
            ⟨_, _, hb, _⟩ | ⟨_, _, _, hb, _⟩ | ⟨_, _, _, hb, _⟩ | ⟨_, _, _, _, e⟩ |
            ⟨_, _, hne, _, _⟩ | ⟨hb, _, _⟩
          · cases hb
          · cases hb
          · cases hb
          · rw [e] at hd; cases hd
          · exact absurd rfl hne
          · cases hb
        | false =>
          simp only [] at hl
          have inv1 := loopInv_step _ _ _ _ hs (loopInv_init _)
          by_cases hr : rest = []
          · subst hr
            rcases parseStep_inv _ _ _ _ _ hs with
              ⟨hcol, _, _, _⟩ | ⟨hsl, _, _, _, _⟩ | ⟨_, _, hne, _, _⟩ | ⟨_, _, _, hb, _⟩ |
              ⟨_, _, _, hb, _⟩ | ⟨_, _, hn⟩
            · rw [hc] at hcol; cases hcol; exact Or.inr rfl
            · rw [hc] at hsl; cases hsl; exact Or.inl rfl
            · exact absurd rfl hne
            · cases hb
            · cases hb
            · exact absurd ⟨rfl, rfl⟩ hn
          · have hpos : 1 ≤ rest.length := List.length_pos.mpr hr
            have := (parseLoop_spec (c :: rest) rest.length (0 + 1) st1 st'
              (by simp only [List.length_cons]; omega) inv1 hl).2.2.2 hpos (by omega)
            exact absurd hd this

/-- The request of line 238 fits its buffer for every decomposed URL. -/
theorem formRequest_parseUrl (url : CString) (t : ParsedTarget) (h : parseUrl url = .ok t) :
    formRequest url.length t.page t.domain
      = .ok ("GET /".toList ++ t.page ++ " HTTP/1.1\r\nHost: ".toList ++ t.domain
          ++ "\r\n\r\n".toList) := by
  unfold parseUrl at h
  cases hl : parseLoop url url.length 0 ParseState.init with
  | error e => rw [hl] at h; cases h
  | ok st' =>
    rw [hl] at h
    simp only [] at h
    cases h
    obtain ⟨r1, _, _, _⟩ := parseLoop_spec url url.length 0 ParseState.init st' (by omega)
      (loopInv_init url) hl
    have hpage : (if st'.pagesize = 0 then PAGE else st'.page).length ≤ st'.page.length + 1 := by
      split_ifs
      · simp [PAGE]
      · omega
    unfold formRequest
    simp only []
    rw [if_pos]
    simp only [List.length_append]
    have e1 : "GET /".toList.length = 5 := rfl
    have e2 : " HTTP/1.1\r\nHost: ".toList.length = 17 := rfl
    have e3 : "\r\n\r\n".toList.length = 4 := rfl
    rw [e1, e2, e3]
    omega

/-! ## The rounding -/

/-- The rounding at some known values: 1 / 10 and 1 / 3 go to the nearest `double`,
integers up to `2 ^ 53` are kept, and above `2 ^ 53` a tie goes to the even
neighbour. -/
theorem roundDouble_values :
    roundDouble (1 / 10) = 3602879701896397 / 36028797018963968 ∧
    roundDouble (1 / 3) = 6004799503160661 / 18014398509481984 ∧
    roundDouble (-(1 / 3)) = -(6004799503160661 / 18014398509481984) ∧
    roundDouble 2147483647 = 2147483647 ∧
    roundDouble 9007199254740992 = 9007199254740992 ∧
    roundDouble 9007199254740993 = 9007199254740992 ∧
    roundDouble 9007199254740995 = 9007199254740996 := by
  decide!

/-! ## The statistics of a run -/

theorem byTime_length (attempts : List Attempt) :
    (qsort comptime (records 0 attempts)).length = attempts.length := by
  rw [(qsort_perm comptime _).length_eq, records_length]

theorem records_id_getElem? : ∀ (attempts : List Attempt) (i k : Nat), k < attempts.length →
    ((records i attempts)[k]?).map ping.id = some ((i : Int) + k + 1) := by
  intro attempts
  induction attempts with
  | nil => intro i k hk; simp at hk
  | cons a rest ih =>
    intro i k hk
    cases k with
    | zero => simp [records]
    | succ k =>
      rw [records, List.getElem?_cons_succ, ih (i + 1) k (by simpa using hk)]
      congr 1
      push_cast
      ring

/-- The error listing of a run: the failed records in the order of their creation. -/
theorem report_errors (request : CString) (reqsize : Nat) (attempts : List Attempt)
    (hne : attempts ≠ []) :
    ∃ r, report request reqsize attempts = some r ∧
      r.errors = ((records 0 attempts).filter (fun p => p.errcode ≠ 0)).map
        (fun p => (p.id, p.errcode)) := by
  have hl : attempts.length ≠ 0 := fun h => hne (List.length_eq_zero.mp h)
  obtain ⟨m, hm, _, _⟩ := median_spec (qsort comptime (records 0 attempts))
    attempts.length (byTime_length attempts) hl
  exact ⟨_, report_eq request reqsize attempts m hne hm, rfl⟩

theorem records_errcode_zero : ∀ (attempts : List Attempt) (i : Nat),
    (∀ a ∈ attempts, a.errno = 0) → ∀ p ∈ records i attempts, p.errcode = 0 := by
  intro attempts
  induction attempts with
  | nil => intro i _ p hp; simp [records] at hp
  | cons a rest ih =>
    intro i h p hp
    rw [records] at hp
    rcases List.mem_cons.mp hp with rfl | hp
    · exact h a (List.mem_cons_self _ _)
    · exact ih (i + 1) (fun b hb => h b (List.mem_cons_of_mem _ hb)) p hp

/-! ## The claims of the specification -/

/-- C1 (host/path): on the raw URL `www.google.com/index.html` the code returns the
host `www.google.co`, one character short, with port `80` and path `index.html`;
with a one-letter host, as in `h/x`, the whole URL becomes the host. -/
theorem C1_host_path_loses_last_host_char :
    parseUrl "www.google.com/index.html".toList
      = .ok ⟨"www.google.co".toList, "80".toList, "index.html".toList⟩ ∧
    parseUrl "h/x".toList = .ok ⟨"h/x".toList, "80".toList, "/".toList⟩ :=
  ⟨rfl, rfl⟩

/-- C2 (host:port): on the raw URL `www.google.com:80` the code returns the path `0`
and the default port, and on `h:8080` it returns port `80` and path `080`: the text
after the colon is not stored as the port when no slash follows. -/
theorem C2_host_port_is_read_as_page :
    parseUrl "www.google.com:80".toList
      = .ok ⟨"www.google.com".toList, "80".toList, "0".toList⟩ ∧
    parseUrl "h:8080".toList = .ok ⟨"h".toList, "80".toList, "080".toList⟩ :=
  ⟨rfl, rfl⟩

/-- C3 as stated fails: the host `http` satisfies the conditions on the host, and the
raw URL `http:80/index.html` is refused for its scheme. -/
theorem C3_counterexample_host_http :
    ¬ (∀ h p q : CString, h ≠ [] → ':' ∉ h → '/' ∉ h → p ≠ [] →
        (∀ c ∈ p, c.isDigit = true) → p.length ≤ 5 → q ≠ [] →
        (h ++ ':' :: (p ++ '/' :: q)).length ≤ 2048 →
        parseUrl (h ++ ':' :: (p ++ '/' :: q)) = .ok ⟨h, p, q⟩) := by
  intro hall
  have h1 := hall "http".toList "80".toList "index.html".toList (by decide) (by decide)
    (by decide) (by decide) (by decide) (by decide) (by decide) (by decide)
  have h2 : parseUrl ("http".toList ++ ':' :: ("80".toList ++ '/' :: "index.html".toList))
      = .error .invalidScheme := rfl
  rw [h2] at h1
  cases h1

/-- C3 (host:port/path), amended: for every non-empty host without colon and slash
that is neither `http` nor `https`, every non-empty string of at most 5 digits and
every non-empty path, with a total length of at most 2048, the raw URL
host, colon, digits, slash, path is decomposed into exactly host, digits and path. -/
theorem C3_host_port_path (h p q : CString)
    (hne : h ≠ []) (hcolon : ':' ∉ h) (hslash : '/' ∉ h)
    (hscheme : h ≠ "http".toList ∧ h ≠ "https".toList)
    (pne : p ≠ []) (pdig : ∀ c ∈ p, c.isDigit = true) (plen : p.length ≤ 5)
    (qne : q ≠ [])
    (hlen : (h ++ ':' :: (p ++ '/' :: q)).length ≤ 2048) :
    parseUrl (h ++ ':' :: (p ++ '/' :: q)) = .ok ⟨h, p, q⟩ :=
  parseUrl_host_port_path h p q hne hcolon hslash hscheme pne pdig plen qne hlen

/-- C3 at `www.google.com:80/index.html`. -/
theorem C3_host_port_path_witness :
    parseUrl "www.google.com:80/index.html".toList
      = .ok ⟨"www.google.com".toList, "80".toList, "index.html".toList⟩ :=
  C3_host_port_path "www.google.com".toList "80".toList "index.html".toList
    (by decide) (by decide) (by decide) (by decide) (by decide) (by decide) (by decide)
    (by decide) (by decide)

/-- C4 (defaults): for every non-empty host without colon and slash and shorter than
2048 characters, the raw URL consisting of the host alone, and the host followed by
a slash, both give that host, port `80` and path `/`. -/
theorem C4_defaults (h : CString) (hne : h ≠ []) (hcolon : ':' ∉ h) (hslash : '/' ∉ h)
    (hlen : h.length < 2048) :
    parseUrl h = .ok ⟨h, "80".toList, "/".toList⟩ ∧
    parseUrl (h ++ "/".toList) = .ok ⟨h, "80".toList, "/".toList⟩ :=
  ⟨parseUrl_host_only h hne hcolon hslash hlen, parseUrl_host_slash h hcolon hslash hlen⟩

/-- C4 at `www.google.com` and `www.google.com/`. -/
theorem C4_defaults_witness :
    parseUrl "www.google.com".toList
      = .ok ⟨"www.google.com".toList, "80".toList, "/".toList⟩ ∧
    parseUrl "www.google.com/".toList
      = .ok ⟨"www.google.com".toList, "80".toList, "/".toList⟩ :=
  C4_defaults "www.google.com".toList (by decide) (by decide) (by decide) (by decide)

/-- C5 as stated fails: for a string `s` of 2044 characters the raw URL `http:` followed
by `s` has 2049 characters and is refused by the length check of line 177, with the
message about the length and not the one about the protocol. -/
theorem C5_counterexample_long_url :
    ¬ (∀ s : CString, checkedParse ("http:".toList ++ s) = .error .invalidScheme ∧
        checkedParse ("https:".toList ++ s) = .error .invalidScheme) := by
  intro hall
  have h1 := (hall (List.replicate 2044 'a')).1
  have h2 : checkedParse ("http:".toList ++ List.replicate 2044 'a') = .error .urlTooLong := by
    have hl : ("http:".toList ++ List.replicate 2044 'a').length = 2049 := by
      rw [List.length_append, List.length_replicate]
      rfl
    unfold checkedParse
    rw [if_pos (by rw [hl, MAX_URL_LEN]; omega)]
  rw [h2] at h1
  cases h1

/-- C5 (scheme rejection), amended: every raw URL of at most 2048 characters that
starts with `http:` or `https:` is refused with the scheme error; the scheme error is
reported exactly for the raw URLs of at most 2048 characters that start so, a longer
raw URL being refused by the length check; `http://example.com` and `https://a` are
refused for their scheme, and `http`, `httpx:80` and `a/http:` are decomposed. -/
theorem C5_scheme_rejection :
    (∀ s : CString, ("http:".toList ++ s).length ≤ 2048 →
      checkedParse ("http:".toList ++ s) = .error .invalidScheme) ∧
    (∀ s : CString, ("https:".toList ++ s).length ≤ 2048 →
      checkedParse ("https:".toList ++ s) = .error .invalidScheme) ∧
    (∀ url : CString, checkedParse url = .error .invalidScheme ↔
      (url.length ≤ 2048 ∧ ("http:".toList <+: url ∨ "https:".toList <+: url))) ∧
    (∀ url : CString, 2048 < url.length → checkedParse url = .error .urlTooLong) ∧
    checkedParse "http://example.com".toList = .error .invalidScheme ∧
    checkedParse "https://a".toList = .error .invalidScheme ∧
    checkedParse "http".toList = .ok ⟨"http".toList, "80".toList, "/".toList⟩ ∧
    checkedParse "httpx:80".toList = .ok ⟨"httpx".toList, "80".toList, "0".toList⟩ ∧
    checkedParse "a/http:".toList = .ok ⟨"a/http".toList, "80".toList, "/".toList⟩ := by
  have short : ∀ url : CString, url.length ≤ 2048 → checkedParse url = parseUrl url := by
    intro url hlen
    unfold checkedParse
    rw [if_neg (by rw [MAX_URL_LEN]; omega)]
  have long : ∀ url : CString, 2048 < url.length → checkedParse url = .error .urlTooLong := by
    intro url hlen
    unfold checkedParse
    rw [if_pos (by rw [MAX_URL_LEN]; omega)]
  refine ⟨fun s hlen => ?_, fun s hlen => ?_, fun url => ⟨fun h => ?_, fun h => ?_⟩, long,
    rfl, rfl, rfl, rfl, rfl⟩
  · rw [short _ hlen]
    exact parseUrl_scheme "http".toList s (Or.inl rfl)
  · rw [short _ hlen]
    exact parseUrl_scheme "https".toList s (Or.inr rfl)
  · by_cases hlen : url.length ≤ 2048
    · rw [short url hlen] at h
      exact ⟨hlen, (parseUrl_invalidScheme_iff url).mp h⟩
    · rw [long url (by omega)] at h
      cases h
  · rw [short url h.1]
    exact (parseUrl_invalidScheme_iff url).mpr h.2

/-- C6 as stated fails: the empty raw URL is decomposed without failure and its host
is empty. -/
theorem C6_counterexample_empty_url :
    ¬ (∀ url : CString, url.length ≤ 2048 →
        (∃ e, parseUrl url = .error e) ∨ (∃ t, parseUrl url = .ok t ∧ t.domain ≠ [])) := by
  intro hall
  have h0 : parseUrl [] = .ok ⟨[], PORT, PAGE⟩ := rfl
  rcases hall [] (by decide) with ⟨e, he⟩ | ⟨t, ht, hd⟩
  · rw [h0] at he; cases he
  · rw [h0] at ht; cases ht; exact hd rfl

/-- C6 (empty host), amended: the code has no empty-host error. A decomposed raw URL
has an empty host exactly when it is the empty string, `/` or `:`; each of these three
is decomposed into the empty host, port `80` and path `/`, and the request with an
empty `Host` header is formed for it. -/
theorem C6_empty_host_is_returned :
    (∀ (url : CString) (t : ParsedTarget), parseUrl url = .ok t →
      (t.domain = [] ↔ (url = [] ∨ url = ['/'] ∨ url = [':']))) ∧
    parseUrl "".toList = .ok ⟨[], "80".toList, "/".toList⟩ ∧
    parseUrl "/".toList = .ok ⟨[], "80".toList, "/".toList⟩ ∧
    parseUrl ":".toList = .ok ⟨[], "80".toList, "/".toList⟩ ∧
    requestOf 0 ⟨[], "80".toList, "/".toList⟩
      = .ok "GET // HTTP/1.1\r\nHost: \r\n\r\n".toList := by
  refine ⟨fun url t h => ⟨parseUrl_domain_nil url t h, ?_⟩, rfl, rfl, rfl, rfl⟩
  rintro (rfl | rfl | rfl)
  · have h0 : parseUrl [] = .ok ⟨[], PORT, PAGE⟩ := rfl
    rw [h0] at h; cases h; rfl
  · have h0 : parseUrl ['/'] = .ok ⟨[], PORT, PAGE⟩ := rfl
    rw [h0] at h; cases h; rfl
  · have h0 : parseUrl [':'] = .ok ⟨[], PORT, PAGE⟩ := rfl
    rw [h0] at h; cases h; rfl

/-- C7 (request wire format): for every decomposed raw URL the request is `GET /`,
the path, ` HTTP/1.1`, CR LF, `Host: `, the host, CR LF CR LF; it has
26 characters more than path and host together; every attempt sends exactly this
buffer; the request is the same whatever the port; and with the default path it
starts with `GET // HTTP/1.1`. -/
theorem C7_request_wire_format (url : CString) (t : ParsedTarget)
    (h : parseUrl url = .ok t) :
    ∃ request : CString, requestOf url.length t = .ok request ∧
      request = "GET /".toList ++ t.page ++ " HTTP/1.1\r\nHost: ".toList ++ t.domain
        ++ "\r\n\r\n".toList ∧
      request.length = 26 + t.page.length + t.domain.length ∧
      (∀ attempts : List Attempt,
        (probeLoop request request.length 0 attempts ProbeState.init).sent
          = List.replicate attempts.length request) ∧
      (∀ port : CString, requestOf url.length { t with port := port } = .ok request) ∧
      (t.page = "/".toList →
        request = "GET // HTTP/1.1\r\nHost: ".toList ++ t.domain ++ "\r\n\r\n".toList) := by
  refine ⟨_, formRequest_parseUrl url t h, rfl, ?_, ?_, fun port => formRequest_parseUrl url t h,
    ?_⟩
  · simp only [List.length_append]
    have e1 : "GET /".toList.length = 5 := rfl
    have e2 : " HTTP/1.1\r\nHost: ".toList.length = 17 := rfl
    have e3 : "\r\n\r\n".toList.length = 4 := rfl
    rw [e1, e2, e3]
    omega
  · intro attempts
    rw [probeLoop_sent, List.take_length]
    rfl
  · intro hp
    rw [hp]
    rfl

/-- C7 at `www.google.com`: the request starts with `GET // HTTP/1.1`. -/
theorem C7_request_wire_format_witness :
    ∃ request : CString,
      requestOf 14 ⟨"www.google.com".toList, "80".toList, "/".toList⟩ = .ok request ∧
      request = "GET // HTTP/1.1\r\nHost: www.google.com\r\n\r\n".toList ∧
      request.length = 41 := by
  obtain ⟨request, h1, h2, h3, _⟩ := C7_request_wire_format "www.google.com".toList
    ⟨"www.google.com".toList, "80".toList, "/".toList⟩ rfl
  exact ⟨request, h1, h2, h3.trans (by decide)⟩

/-- C9 (chronological error listing): for every non-empty run, whatever the times,
after the sort by time and the sort by id the error listing consists of the records
with a non-zero error code, taken in the order of their creation; the records carry
the ids 1 to n in that order; the listed ids are strictly ascending, no entry is
listed twice, each failed record is listed, no listed entry has error code 0, and
the listing is empty when no attempt failed. -/
theorem C9_error_listing (request : CString) (reqsize : Nat) (attempts : List Attempt)
    (hne : attempts ≠ []) :
    ∃ r, report request reqsize attempts = some r ∧
      r.errors = ((records 0 attempts).filter (fun p => p.errcode ≠ 0)).map
        (fun p => (p.id, p.errcode)) ∧
      (∀ k, k < attempts.length →
        ((records 0 attempts)[k]?).map ping.id = some ((k : Int) + 1)) ∧
      (r.errors.map Prod.fst).Pairwise (· < ·) ∧
      r.errors.Nodup ∧
      (∀ p ∈ records 0 attempts, p.errcode ≠ 0 → (p.id, p.errcode) ∈ r.errors) ∧
      (∀ e ∈ r.errors, e.2 ≠ 0) ∧
      ((∀ a ∈ attempts, a.errno = 0) → r.errors = []) := by
  obtain ⟨r, hr, he⟩ := report_errors request reqsize attempts hne
  have hids : (r.errors.map Prod.fst).Pairwise (· < ·) := by
    rw [he, List.map_map]
    have hsub : (((records 0 attempts).filter (fun p => p.errcode ≠ 0)).map ping.id).Sublist
        ((records 0 attempts).map ping.id) := (List.filter_sublist _).map _
    exact (records_ids_ascending attempts 0).sublist hsub
  have hnd : r.errors.Nodup := by
    have h1 : (r.errors.map Prod.fst).Nodup := hids.imp (fun {a b} hab => ne_of_lt hab)
    exact List.Nodup.of_map _ h1
  refine ⟨r, hr, he, fun k hk => ?_, hids, hnd, fun p hp hpe => ?_, fun e hmem => ?_,
    fun h0 => ?_⟩
  · have := records_id_getElem? attempts 0 k hk
    simpa using this
  · rw [he]
    exact List.mem_map.mpr ⟨p, List.mem_filter.mpr ⟨hp, by simpa using hpe⟩, rfl⟩
  · rw [he] at hmem
    obtain ⟨p, hp, rfl⟩ := List.mem_map.mp hmem
    have := (List.mem_filter.mp hp).2
    simpa using this
  · rw [he]
    have : (records 0 attempts).filter (fun p => p.errcode ≠ 0) = [] := by
      rw [List.filter_eq_nil_iff]
      intro p hp
      simp [records_errcode_zero attempts 0 h0 p hp]
    rw [this]
    rfl

/-- C9 at a run of four attempts of which the second and the fourth fail, the
fourth being the fastest. -/
theorem C9_error_listing_witness :
    ∃ r, report [] 0 [⟨10, 100, 0⟩, ⟨5, 0, 104⟩, ⟨20, 100, 0⟩, ⟨1, -1, 32⟩] = some r ∧
      r.errors = [(2, 104), (4, 32)] := by
  obtain ⟨r, hr, he, _⟩ := C9_error_listing [] 0
    [⟨10, 100, 0⟩, ⟨5, 0, 104⟩, ⟨20, 100, 0⟩, ⟨1, -1, 32⟩] (List.cons_ne_nil _ _)
  refine ⟨r, hr, ?_⟩
  rw [he]
  simp [records]

end Httping
